import Mathlib

/-!
Shallow embedding of `src/admin_tools/architect.py` (the "Aphex Architect"
Streamlit app) and proofs of the specification's claims about its three
helper functions: `generate_response`, `build_blueprint_from_folder` and
`deploy_to_github`.

Python strings are modelled as Lean `String` (both are sequences of Unicode
scalar values), Python dicts with string keys as insertion-ordered
association lists (`List (String × String)`) with the dict-assignment
operation `dictInsert`, exceptions as `Except` with the exception text as a
`String`, and the two remote services (GitHub via PyGithub, OpenAI) as
oracles recording the outcome of each remote call; the functions return the
list of remote calls they performed together with their result, so that
claims about how many calls happen and with which arguments are statable.
-/

/-- Python's substring test `needle in hay` on lists of characters:
`hasPre needle hay` is true iff `needle` is a prefix of `hay`. -/
def hasPre : List Char → List Char → Bool
  | [], _ => true
  | _ :: _, [] => false
  | a :: as, b :: bs => a == b && hasPre as bs

/-- `hasSub needle hay` is true iff `needle` occurs contiguously in `hay`. -/
def hasSub (needle : List Char) : List Char → Bool
  | [] => hasPre needle []
  | b :: bs => hasPre needle (b :: bs) || hasSub needle bs

/-- Python's `needle in hay` for strings. -/
def strContains (hay needle : String) : Bool :=
  hasSub needle.data hay.data

/-- Python dict assignment `d[k] = v` on an insertion-ordered association
list: if the key is present its value is updated in place (position kept),
otherwise the pair is appended. -/
def dictInsert (d : List (String × String)) (k v : String) : List (String × String) :=
  if d.any (fun p => p.1 == k) then
    d.map (fun p => if p.1 == k then (k, v) else p)
  else
    d ++ [(k, v)]

/-! ## JSON serialization: model of `json.dumps(blueprint, indent=2, ensure_ascii=False)`

CPython's `json.dumps` with `ensure_ascii=False` escapes exactly the
characters `"` and `\` and the control characters below U+0020 (using the
short escapes `\b \t \n \f \r` where available and `\u00XX` otherwise); all
other characters, non-ASCII included, are emitted literally.  With
`indent=2` an empty dict serializes as `{}` and a non-empty dict as one
key/value pair per line, indented by two spaces, separated by `,\n`, with
`: ` between key and value. -/

/-- Lowercase hex digit for a value below 16 (as used by `\u00XX` escapes). -/
def hexDigit (n : Nat) : Char :=
  if n < 10 then Char.ofNat (48 + n) else Char.ofNat (87 + n)

/-- Escape of a single character in a JSON string literal,
per CPython's `py_encode_basestring` (the `ensure_ascii=False` path). -/
def escChar (c : Char) : List Char :=
  if c = '"' then ['\\', '"']
  else if c = '\\' then ['\\', '\\']
  else if c = '\x08' then ['\\', 'b']
  else if c = '\t' then ['\\', 't']
  else if c = '\n' then ['\\', 'n']
  else if c = '\x0c' then ['\\', 'f']
  else if c = '\r' then ['\\', 'r']
  else if c.toNat < 0x20 then
    ['\\', 'u', '0', '0', hexDigit (c.toNat / 16), hexDigit (c.toNat % 16)]
  else [c]

/-- A JSON string literal: quote, escaped characters, quote. -/
def jsonQuote (s : String) : String :=
  "\"" ++ (s.data.flatMap escChar).asString ++ "\""

/-- One `  "key": "value"` line of the indented serialization. -/
def jsonEntry (kv : String × String) : String :=
  "  " ++ jsonQuote kv.1 ++ ": " ++ jsonQuote kv.2

/-- The `,\n`-separated body of the indented serialization. -/
def dumpsEntries : List (String × String) → String
  | [] => ""
  | [kv] => jsonEntry kv
  | kv :: tl => jsonEntry kv ++ ",\n" ++ dumpsEntries tl

/-- Model of `json.dumps(blueprint, indent=2, ensure_ascii=False)` as called
at architect.py line 90, on a flat string-to-string mapping. -/
def dumps (b : List (String × String)) : String :=
  match b with
  | [] => "\x7b\x7d"
  | _ :: _ => "\x7b\n" ++ dumpsEntries b ++ "\n\x7d"

/-! ## GitHub publisher: model of `deploy_to_github` -/

/-- The `ContentFile` returned by `repo.get_contents`: the fields the code
reads (`path` and the concurrency token `sha`). -/
structure ExistingFile where
  path : String
  sha : String
deriving DecidableEq, Repr

/-- Outcomes of the remote GitHub operations, an oracle for one run:
each operation is performed at most once, so a fixed outcome per operation
suffices.  An `Except.error` outcome models the PyGithub call raising an
exception whose `str()` is the carried message. -/
structure Remote where
  get_repo : Except String Unit
  get_contents : Except String ExistingFile
  update_file : Except String Unit
  create_file : Except String Unit

/-- A remote GitHub call actually performed, with its arguments. -/
inductive GHCall where
  | get_repo (repo_full_name : String)
  | get_contents (path ref : String)
  | update_file (path message content sha branch : String)
  | create_file (path message content branch : String)
deriving DecidableEq, Repr

/-- Is this call a fetch of the target file (`repo.get_contents`)? -/
def GHCall.isFetch : GHCall → Bool
  | .get_contents _ _ => true
  | _ => false

/-- Is this call a `repo.update_file`? -/
def GHCall.isUpdate : GHCall → Bool
  | .update_file _ _ _ _ _ => true
  | _ => false

/-- Is this call a `repo.create_file`? -/
def GHCall.isCreate : GHCall → Bool
  | .create_file _ _ _ _ => true
  | _ => false

/-- Errors raised by `deploy_to_github`: the two `ValueError`s for missing
inputs, and any exception propagating from a remote call. -/
inductive DeployError where
  | missingCredential
  | missingTarget
  | remote (msg : String)
deriving DecidableEq, Repr

/-- Model of Python's `str.lower()`: lowercase character by character.
(`Char.toLower` lowers the ASCII range, which covers the ASCII marker
`"not found"` the lowered text is compared against.) -/
def pyLower (s : String) : String :=
  ⟨s.data.map Char.toLower⟩

/-- The not-found test of the `except` handler at architect.py line 96:
`'404' in err_str or 'not found' in err_str.lower()`. -/
def notFoundMatch (err_str : String) : Bool :=
  strContains err_str "404" || strContains (pyLower err_str) "not found"

/-- The `except Exception as e` handler of `deploy_to_github` (lines 94-101):
on a not-found style message, call `repo.create_file`; otherwise re-raise.
`calls` is the trace accumulated before the handler runs. -/
def deployHandler (remote : Remote) (target_path commit_message content_str branch_name : String)
    (calls : List GHCall) (err_str : String) : List GHCall × Except DeployError Unit :=
  if notFoundMatch err_str then
    let calls := calls ++ [GHCall.create_file target_path commit_message content_str branch_name]
    match remote.create_file with
    | .ok _ => (calls, .ok ())
    | .error e2 => (calls, .error (.remote e2))
  else
    (calls, .error (.remote err_str))

/-- Model of `deploy_to_github` (architect.py lines 80-101).  Returns the
trace of remote calls performed and either success or the raised error.
Note that the `try` block spans both `repo.get_contents` and
`repo.update_file`, so the handler above also catches update failures. -/
def deploy_to_github (remote : Remote) (token repo_full_name : String)
    (blueprint : List (String × String)) (commit_message branch_name : String) :
    List GHCall × Except DeployError Unit :=
  if token = "" then ([], .error .missingCredential)
  else if repo_full_name = "" then ([], .error .missingTarget)
  else
    match remote.get_repo with
    | .error e => ([GHCall.get_repo repo_full_name], .error (.remote e))
    | .ok _ =>
      let target_path := "admin_tools_blueprint.json"
      let content_str := dumps blueprint
      let calls := [GHCall.get_repo repo_full_name,
                    GHCall.get_contents target_path branch_name]
      match remote.get_contents with
      | .ok existing =>
        let calls := calls ++ [GHCall.update_file existing.path commit_message content_str
                                existing.sha branch_name]
        match remote.update_file with
        | .ok _ => (calls, .ok ())
        | .error e =>
          deployHandler remote target_path commit_message content_str branch_name calls e
      | .error e =>
        deployHandler remote target_path commit_message content_str branch_name calls e

/-! ## OpenAI chat: model of `generate_response` -/

/-- The shape-probed `choices[0]` object: `message` models
`getattr(choice, 'message', None)` (a dict when present, probed through
`.get`), `text` models the `choice.text` fallback attribute. -/
structure Choice where
  message : Option (List (String × String))
  text : Option String

/-- The response object: `choices` models `getattr(resp, 'choices', None)`;
`none` covers both an absent attribute and a `None` value. -/
structure RespObj where
  choices : Option (List Choice)

/-- A remote OpenAI call actually performed, with its arguments. -/
inductive OACall where
  | chatCompletionCreate (model : String) (messages : List (String × String))
deriving DecidableEq, Repr

/-- Errors raised by `generate_response`. -/
inductive GRError where
  | missingCredential
  | remote (msg : String)
deriving DecidableEq, Repr

/-- Python truthiness of a value used in the extraction: a `None`/absent
attribute and an empty list are both falsy. -/
def truthyChoices : Option (List Choice) → Bool
  | none => false
  | some l => !l.isEmpty

/-- The defensive extraction of the assistant text from the response
(architect.py lines 49-60), `content or ''` step included. -/
def extractContent (resp : Option RespObj) : String :=
  let content :=
    match resp with
    | none => ""
    | some r =>
      if truthyChoices r.choices then
        match r.choices with
        | some (choice :: _) =>
          (match choice.message with
           | some msg =>
             if msg.isEmpty then
               -- a falsy (empty-dict) message falls through to the text fallback
               (choice.text).getD ""
             else
               -- msg.get('content', '')
               ((msg.find? (fun p => p.1 == "content")).map Prod.snd).getD ""
           | none => (choice.text).getD "")
        | _ => ""
      else ""
  if content = "" then "" else content

/-- Model of `generate_response` (architect.py lines 39-60): `net` is the
outcome of `openai.ChatCompletion.create`, `none` inside `.ok` modelling a
falsy response object. -/
def generate_response (api_key model_name : String) (messages : List (String × String))
    (net : Except String (Option RespObj)) : List OACall × Except GRError String :=
  if api_key = "" then ([], .error .missingCredential)
  else
    let calls := [OACall.chatCompletionCreate model_name messages]
    match net with
    | .error e => (calls, .error (.remote e))
    | .ok resp => (calls, .ok (extractContent resp))

/-! ## Filesystem model and `build_blueprint_from_folder`

A directory tree is a nested inductive: a node is a file (whose read either
yields UTF-8 text or raises, the reason abstracted as a `ReadError`) or a
directory with a named list of children.  `walkList` enumerates every
descendant with its path expressed as a list of name components (as
`pathlib`'s host-independent `parts`); `folder.rglob('*')` yields those
descendants in some filesystem-determined order, which `sorted(...)`
normalizes by comparing path strings, the components joined by the
separator. -/

/-- Why reading a file as UTF-8 text could raise; the code's
`except Exception` does not distinguish them. -/
inductive ReadError where
  | decodeError
  | permissionError
  | ioError
  | other
deriving DecidableEq, Repr

/-- A node of a directory tree. -/
inductive Entry where
  | file (read : Except ReadError String)
  | dir (children : List (String × Entry))

/-- Does `Path.is_file()` hold of this node? -/
def Entry.isFile : Entry → Bool
  | .file _ => true
  | .dir _ => false

mutual
/-- All descendants of an entry named `name`, the entry itself included,
paired with their component paths. Models the set `folder.rglob('*')`
restricted to the subtree rooted at this child. -/
def walkOne (name : String) : Entry → List (List String × Entry)
  | .file r => [([name], .file r)]
  | .dir cs => ([name], .dir cs) :: (walkList cs).map (fun pe => (name :: pe.1, pe.2))

/-- All descendants of a children list, with component paths. -/
def walkList : List (String × Entry) → List (List String × Entry)
  | [] => []
  | (name, e) :: rest => walkOne name e ++ walkList rest
end

/-- A component path rendered with `/` separators (`PurePath.as_posix`, and
the string `sorted` compares). -/
def pathStr : List String → String
  | [] => ""
  | [c] => c
  | c :: cs => c ++ "/" ++ pathStr cs

/-- Lexicographic (code-point) comparison of character sequences: the order
Python uses to compare strings. -/
def charsLE : List Char → List Char → Bool
  | [], _ => true
  | _ :: _, [] => false
  | a :: as, b :: bs => if a = b then charsLE as bs else decide (a < b)

/-- Python's `a <= b` on strings. -/
def strLE (a b : String) : Bool :=
  charsLE a.data b.data

/-- The comparison `sorted(folder.rglob('*'))` sorts by: the path strings. -/
abbrev pathLE (a b : List String × Entry) : Prop :=
  strLE (pathStr a.1) (pathStr b.1) = true

/-- The loop body of `build_blueprint_from_folder`: skip non-files, read the
file, skip it when the read raises, else assign `blueprint[rel] = text`
where `rel` is the path relative to the root's parent (root name first). -/
def buildStep (folderName : String) (bp : List (String × String))
    (pe : List String × Entry) : List (String × String) :=
  match pe.2 with
  | .dir _ => bp
  | .file r =>
    match r with
    | .error _ => bp
    | .ok text => dictInsert bp (pathStr (folderName :: pe.1)) text

/-- Model of `build_blueprint_from_folder` (architect.py lines 62-77).
`folder = none` models a path that does not exist, `some (.file _)` an
existing path that is not a directory.  `folderName` is `folder.name`, so
that `p.relative_to(folder.parent)` is `folderName` followed by the path of
`p` relative to the folder.  Python's `sorted` (a stable sort by path
string) is modelled by the stable `insertionSort`; as all paths in a tree
are distinct the choice of stable sorting algorithm is immaterial. -/
def build_blueprint_from_folder (folderName : String) (folder : Option Entry) :
    List (String × String) :=
  match folder with
  | none => []
  | some (.file _) => []
  | some (.dir cs) =>
    ((walkList cs).insertionSort pathLE).foldl (buildStep folderName) []

/-! ## JSON parsing: model of `json.loads` on the blueprint schema

The persisted artifact's schema is a flat mapping of string to string
(spec §6), so the parser is modelled on that fragment of JSON: an object
whose values are strings, with the whitespace, string-escape and
duplicate-key (last value wins, dict semantics) behavior of `json.loads`
in strict mode. -/

/-- Value of one hex digit, upper or lower case. -/
def fromHex (c : Char) : Option Nat :=
  if '0' ≤ c ∧ c ≤ '9' then some (c.toNat - 48)
  else if 'a' ≤ c ∧ c ≤ 'f' then some (c.toNat - 87)
  else if 'A' ≤ c ∧ c ≤ 'F' then some (c.toNat - 55)
  else none

/-- Value of a `\uXXXX` escape's four hex digits. -/
def hex4 (a b c d : Char) : Option Nat :=
  match fromHex a, fromHex b, fromHex c, fromHex d with
  | some x, some y, some z, some w => some (4096 * x + 256 * y + 16 * z + w)
  | _, _, _, _ => none

/-- The single-character JSON escapes. -/
def simpleUnescape (e : Char) : Option Char :=
  if e = '"' then some '"'
  else if e = '\\' then some '\\'
  else if e = '/' then some '/'
  else if e = 'b' then some '\x08'
  else if e = 'f' then some '\x0c'
  else if e = 'n' then some '\n'
  else if e = 'r' then some '\r'
  else if e = 't' then some '\t'
  else none

/-- Parse the body of a JSON string literal (the opening quote already
consumed) up to and including the closing quote; returns the decoded
characters and the remaining input.  Raw control characters are rejected
(`json.loads` strict mode). -/
def parseStringBody : List Char → Option (List Char × List Char)
  | [] => none
  | c :: rest =>
    if c = '"' then some (([] : List Char), rest)
    else if c = '\\' then
      match rest with
      | [] => none
      | e :: rest2 =>
        if e = 'u' then
          match rest2 with
          | h1 :: h2 :: h3 :: h4 :: rest3 =>
            match hex4 h1 h2 h3 h4 with
            | some n => (parseStringBody rest3).map (fun p => (Char.ofNat n :: p.1, p.2))
            | none => none
          | _ => none
        else
          match simpleUnescape e with
          | some c2 => (parseStringBody rest2).map (fun p => (c2 :: p.1, p.2))
          | none => none
    else if c.toNat < 0x20 then none
    else (parseStringBody rest).map (fun p => (c :: p.1, p.2))
termination_by l => l.length
decreasing_by all_goals simp_arith [List.length]

/-- Drop leading JSON whitespace. -/
def skipWs : List Char → List Char
  | [] => []
  | c :: rest =>
    if c = ' ' ∨ c = '\t' ∨ c = '\n' ∨ c = '\r' then skipWs rest else c :: rest

/-- Parse one `"key": "value"` member, leading whitespace allowed. -/
def parseMember (l : List Char) : Option ((String × String) × List Char) :=
  match skipWs l with
  | [] => none
  | c :: r1 =>
    if c = '"' then
      match parseStringBody r1 with
      | none => none
      | some (k, r2) =>
        match skipWs r2 with
        | [] => none
        | c2 :: r3 =>
          if c2 = ':' then
            match skipWs r3 with
            | [] => none
            | c3 :: r4 =>
              if c3 = '"' then
                match parseStringBody r4 with
                | none => none
                | some (v, r5) => some ((k.asString, v.asString), r5)
              else none
          else none
    else none

/-- Parse a non-empty `,`-separated member list up to and including the
closing brace.  `fuel` bounds the number of members; one unit is spent per
member, so any bound at least the member count is enough. -/
def parseMembers : Nat → List Char → Option (List (String × String) × List Char)
  | 0, _ => none
  | fuel + 1, l =>
    match parseMember l with
    | none => none
    | some (kv, r) =>
      match skipWs r with
      | [] => none
      | c :: r2 =>
        if c = ',' then (parseMembers fuel r2).map (fun p => (kv :: p.1, p.2))
        else if c = '\x7d' then some ([kv], r2)
        else none

/-- Model of `json.loads` on a flat string-to-string object: parse the
object and build the dict member by member (later duplicate keys
overwrite, dict-assignment semantics). -/
def loads (s : String) : Option (List (String × String)) :=
  match skipWs s.data with
  | [] => none
  | c :: r =>
    if c = '\x7b' then
      match skipWs r with
      | [] => none
      | c2 :: r2 =>
        if c2 = '\x7d' then (if (skipWs r2).isEmpty then some [] else none)
        else
          match parseMembers (r.length + 1) r with
          | some (ms, rest) =>
            if (skipWs rest).isEmpty then
              some (ms.foldl (fun d kv => dictInsert d kv.1 kv.2) [])
            else none
          | none => none
    else none

/-! ## Derived forms used by the correctness statements -/

/-- The blueprint entry a walked node contributes: files whose read
succeeds yield their key (root name first, `/`-separated) and text;
directories and unreadable files yield nothing. -/
def fileEntry (folderName : String) (pe : List String × Entry) : Option (String × String) :=
  match pe.2 with
  | .file (.ok text) => some (pathStr (folderName :: pe.1), text)
  | _ => none

/-- The character stream of the serialized members, each followed by its
separator, ending with the closing `\n`-brace; the shape `parseMembers`
consumes. -/
def entriesData : List (String × String) → List Char
  | [] => []
  | [kv] => (jsonEntry kv).data ++ ['\n', '\x7d']
  | kv :: tl => (jsonEntry kv).data ++ ',' :: '\n' :: entriesData tl

/-! ## Order lemmas for the path comparison -/

theorem charsLE_refl (a : List Char) : charsLE a a = true := by
  induction a with
  | nil => rfl
  | cons c cs ih => simp [charsLE, ih]

theorem charsLE_total (a b : List Char) : charsLE a b = true ∨ charsLE b a = true := by
  induction a generalizing b with
  | nil => left; rfl
  | cons x xs ih =>
    cases b with
    | nil => right; rfl
    | cons y ys =>
      by_cases h : x = y
      · subst h; simpa [charsLE] using ih ys
      · have h2 : y ≠ x := fun e => h e.symm
        rcases lt_or_gt_of_ne h with hlt | hgt
        · left; simp [charsLE, h, hlt]
        · right; simp [charsLE, h2, hgt]

theorem charsLE_trans (a b c : List Char) (hab : charsLE a b = true)
    (hbc : charsLE b c = true) : charsLE a c = true := by
  induction a generalizing b c with
  | nil => rfl
  | cons x xs ih =>
    cases b with
    | nil => simp [charsLE] at hab
    | cons y ys =>
      cases c with
      | nil => simp [charsLE] at hbc
      | cons z zs =>
        by_cases hxy : x = y <;> by_cases hyz : y = z
        · subst hxy; subst hyz
          simp only [charsLE, if_pos rfl] at hab hbc ⊢
          exact ih ys zs hab hbc
        · subst hxy
          simp only [charsLE, if_pos rfl, if_neg hyz] at hab hbc ⊢
          exact hbc
        · subst hyz
          simp only [charsLE, if_neg hxy] at hab ⊢
          exact hab
        · simp only [charsLE, if_neg hxy, if_neg hyz, decide_eq_true_eq] at hab hbc
          have hxz : x < z := lt_trans hab hbc
          simp [charsLE, ne_of_lt hxz, hxz]

theorem charsLE_antisymm (a b : List Char) (hab : charsLE a b = true)
    (hba : charsLE b a = true) : a = b := by
  induction a generalizing b with
  | nil =>
    cases b with
    | nil => rfl
    | cons y ys => simp [charsLE] at hba
  | cons x xs ih =>
    cases b with
    | nil => simp [charsLE] at hab
    | cons y ys =>
      by_cases hxy : x = y
      · subst hxy
        simp only [charsLE, if_pos rfl] at hab hba
        exact congrArg (x :: ·) (ih ys hab hba)
      · have hyx : y ≠ x := fun e => hxy e.symm
        simp only [charsLE, if_neg hxy, if_neg hyx, decide_eq_true_eq] at hab hba
        exact absurd hba (lt_asymm hab)

theorem strLE_total (a b : String) : strLE a b = true ∨ strLE b a = true :=
  charsLE_total a.data b.data

theorem strLE_trans {a b c : String} (hab : strLE a b = true) (hbc : strLE b c = true) :
    strLE a c = true :=
  charsLE_trans a.data b.data c.data hab hbc

theorem strLE_antisymm {a b : String} (hab : strLE a b = true) (hba : strLE b a = true) :
    a = b := by
  have h := charsLE_antisymm a.data b.data hab hba
  cases a; cases b; exact congrArg String.mk h

instance : IsTotal (List String × Entry) pathLE :=
  ⟨fun a b => strLE_total (pathStr a.1) (pathStr b.1)⟩

instance : IsTrans (List String × Entry) pathLE :=
  ⟨fun _ _ _ hab hbc => strLE_trans hab hbc⟩

/-! ## Dict and fold lemmas -/

theorem dictInsert_of_not_mem {d : List (String × String)} {k v : String}
    (h : ∀ p ∈ d, p.1 ≠ k) : dictInsert d k v = d ++ [(k, v)] := by
  unfold dictInsert
  rw [if_neg]
  simp only [List.any_eq_true, beq_iff_eq, not_exists]
  intro p hpk
  exact h p hpk.1 hpk.2

theorem mem_dictInsert {d : List (String × String)} {k v k' v' : String}
    (h : (k', v') ∈ dictInsert d k v) : (k', v') ∈ d ∨ k' = k := by
  unfold dictInsert at h
  split at h
  · rcases List.mem_map.mp h with ⟨p, hp, he⟩
    by_cases hk : p.1 == k
    · rw [if_pos hk] at he
      right
      exact (Prod.mk.injEq _ _ _ _ ▸ he.symm).1.symm ▸ rfl
    · rw [if_neg hk] at he
      left
      exact he ▸ hp
  · rcases List.mem_append.mp h with hd | he
    · exact Or.inl hd
    · right
      have : (k', v') = (k, v) := List.mem_singleton.mp he
      exact (Prod.mk.injEq _ _ _ _ ▸ this).1

/-- `buildStep` through the lens of `fileEntry`. -/
theorem buildStep_eq (f : String) (bp : List (String × String)) (pe : List String × Entry) :
    buildStep f bp pe =
      match fileEntry f pe with
      | some kv => dictInsert bp kv.1 kv.2
      | none => bp := by
  rcases pe with ⟨comps, e⟩
  cases e with
  | dir cs => rfl
  | file r => cases r <;> rfl

/-- Folding the loop body over entries with fresh, pairwise-distinct file
keys appends exactly the successful file entries, in order. -/
theorem foldl_buildStep_eq (f : String) :
    ∀ (l : List (List String × Entry)) (acc : List (String × String)),
    (acc.map Prod.fst ++ (l.filterMap (fileEntry f)).map Prod.fst).Nodup →
    l.foldl (buildStep f) acc = acc ++ l.filterMap (fileEntry f) := by
  intro l
  induction l with
  | nil => intro acc _; simp
  | cons pe rest ih =>
    intro acc hnd
    rw [List.foldl_cons, buildStep_eq]
    cases hfe : fileEntry f pe with
    | none =>
      simp only [List.filterMap_cons, hfe] at hnd ⊢
      exact ih acc hnd
    | some kv =>
      rcases kv with ⟨k, t⟩
      simp only [List.filterMap_cons, hfe, List.map_cons] at hnd ⊢
      have hknotacc : ∀ p ∈ acc, p.1 ≠ k := by
        intro p hp he
        rcases List.nodup_append.mp hnd with ⟨_, _, hdisj⟩
        have hmem : p.1 ∈ k :: (rest.filterMap (fileEntry f)).map Prod.fst := by
          rw [he]; exact List.mem_cons_self _ _
        exact hdisj (List.mem_map_of_mem Prod.fst hp) hmem
      rw [dictInsert_of_not_mem hknotacc]
      have hnd' : ((acc ++ [(k, t)]).map Prod.fst ++
          (rest.filterMap (fileEntry f)).map Prod.fst).Nodup := by
        have : (acc ++ [(k, t)]).map Prod.fst ++ (rest.filterMap (fileEntry f)).map Prod.fst
            = acc.map Prod.fst ++ (k :: (rest.filterMap (fileEntry f)).map Prod.fst) := by
          simp
        rw [this]
        exact hnd
      rw [ih (acc ++ [(k, t)]) hnd']
      simp

/-! ## Walk lemmas and the build characterization -/

theorem string_append_cancel_left {p x y : String} (h : p ++ x = p ++ y) : x = y := by
  have hd : p.data ++ x.data = p.data ++ y.data := by
    have h2 := congrArg String.data h
    simpa using h2
  have h3 := List.append_cancel_left hd
  cases x; cases y; exact congrArg String.mk h3

theorem mem_walkOne {n : String} {e : Entry} {pe : List String × Entry}
    (h : pe ∈ walkOne n e) : ∃ p, pe.1 = n :: p := by
  cases e with
  | file r =>
    simp only [walkOne, List.mem_singleton] at h
    exact ⟨[], by rw [h]⟩
  | dir cs =>
    rcases List.mem_cons.mp h with h1 | h2
    · exact ⟨[], by rw [h1]⟩
    · rcases List.mem_map.mp h2 with ⟨q, _, hq⟩
      exact ⟨q.1, by rw [← hq]⟩

theorem walkList_path_ne_nil {cs : List (String × Entry)} {pe : List String × Entry}
    (h : pe ∈ walkList cs) : pe.1 ≠ [] := by
  induction cs with
  | nil => simp [walkList] at h
  | cons ne rest ih =>
    rcases ne with ⟨n, e⟩
    rw [walkList] at h
    rcases List.mem_append.mp h with h1 | h2
    · rcases mem_walkOne h1 with ⟨p, hp⟩
      simp [hp]
    · exact ih h2

theorem pathStr_cons_of_ne_nil {f : String} {p : List String} (hp : p ≠ []) :
    pathStr (f :: p) = f ++ "/" ++ pathStr p := by
  cases p with
  | nil => exact absurd rfl hp
  | cons x xs => rfl

theorem pathKey_inj {f : String} {p q : List String} (hp : p ≠ []) (hq : q ≠ [])
    (h : pathStr (f :: p) = pathStr (f :: q)) : pathStr p = pathStr q := by
  rw [pathStr_cons_of_ne_nil hp, pathStr_cons_of_ne_nil hq] at h
  exact string_append_cancel_left h

theorem fileEntry_key {f : String} {pe : List String × Entry} {kv : String × String}
    (h : fileEntry f pe = some kv) : kv.1 = pathStr (f :: pe.1) := by
  unfold fileEntry at h
  rcases pe with ⟨comps, e⟩
  cases e with
  | dir cs => simp at h
  | file r =>
    cases r with
    | error er => simp at h
    | ok text => simp at h; rw [← h]

theorem filterMap_keys_sublist (f : String) :
    ∀ l : List (List String × Entry),
    ((l.filterMap (fileEntry f)).map Prod.fst).Sublist
      (l.map fun pe => pathStr (f :: pe.1)) := by
  intro l
  induction l with
  | nil => simp
  | cons pe rest ih =>
    cases hfe : fileEntry f pe with
    | none =>
      simp only [List.filterMap_cons, hfe, List.map_cons]
      exact ih.cons _
    | some kv =>
      simp only [List.filterMap_cons, hfe, List.map_cons]
      rw [fileEntry_key hfe]
      exact ih.cons₂ _

/-- The mapping `build` returns is exactly the successful file reads, in
sorted path order, keyed root-name-first with `/` separators — provided the
tree's paths are distinct, as file-system paths are. -/
theorem build_eq_filterMap (f : String) (cs : List (String × Entry))
    (hnd : ((walkList cs).map (fun pe => pathStr pe.1)).Nodup) :
    build_blueprint_from_folder f (some (.dir cs))
      = ((walkList cs).insertionSort pathLE).filterMap (fileEntry f) := by
  have hperm : List.Perm ((walkList cs).insertionSort pathLE) (walkList cs) :=
    List.perm_insertionSort pathLE (walkList cs)
  have hnds : (((walkList cs).insertionSort pathLE).map (fun pe => pathStr pe.1)).Nodup :=
    ((hperm.map _).nodup_iff).mpr hnd
  have hsnd : ((walkList cs).insertionSort pathLE).Nodup := hnds.of_map
  have hinj := List.inj_on_of_nodup_map hnds
  have hfullkey : (((walkList cs).insertionSort pathLE).map
      (fun pe => pathStr (f :: pe.1))).Nodup := by
    apply hsnd.map_on
    intro x hx y hy hxy
    have hxne : x.1 ≠ [] := walkList_path_ne_nil (hperm.subset hx)
    have hyne : y.1 ≠ [] := walkList_path_ne_nil (hperm.subset hy)
    exact hinj hx hy (pathKey_inj hxne hyne hxy)
  have hkeys : ((((walkList cs).insertionSort pathLE).filterMap
      (fileEntry f)).map Prod.fst).Nodup :=
    (filterMap_keys_sublist f _).nodup hfullkey
  have := foldl_buildStep_eq f ((walkList cs).insertionSort pathLE) [] (by simpa using hkeys)
  simpa [build_blueprint_from_folder] using this

/-! ## Membership in the built mapping -/

theorem mem_dictInsert_eq {d : List (String × String)} {k v : String} {p : String × String}
    (h : p ∈ dictInsert d k v) : p ∈ d ∨ p = (k, v) := by
  unfold dictInsert at h
  split at h
  · rcases List.mem_map.mp h with ⟨q, hq, he⟩
    by_cases hk : q.1 == k
    · rw [if_pos hk] at he
      exact Or.inr he.symm
    · rw [if_neg hk] at he
      exact Or.inl (he ▸ hq)
  · rcases List.mem_append.mp h with hd | he
    · exact Or.inl hd
    · exact Or.inr (List.mem_singleton.mp he)

theorem mem_foldl_buildStep (f : String) :
    ∀ (l : List (List String × Entry)) (acc : List (String × String)) (p : String × String),
    p ∈ l.foldl (buildStep f) acc →
    p ∈ acc ∨ ∃ pe ∈ l, fileEntry f pe = some p := by
  intro l
  induction l with
  | nil => intro acc p h; exact Or.inl h
  | cons pe rest ih =>
    intro acc p h
    rw [List.foldl_cons] at h
    rcases ih (buildStep f acc pe) p h with hin | ⟨pe2, hpe2, hfe2⟩
    · rw [buildStep_eq] at hin
      cases hfe : fileEntry f pe with
      | none => rw [hfe] at hin; exact Or.inl hin
      | some kv =>
        rw [hfe] at hin
        rcases mem_dictInsert_eq hin with hacc | heq
        · exact Or.inl hacc
        · exact Or.inr ⟨pe, List.mem_cons_self _ _, by rw [hfe, heq]⟩
    · exact Or.inr ⟨pe2, List.mem_cons_of_mem _ hpe2, hfe2⟩

theorem fileEntry_inv {f : String} {pe : List String × Entry} {kv : String × String}
    (h : fileEntry f pe = some kv) :
    pe.2 = Entry.file (.ok kv.2) ∧ kv.1 = pathStr (f :: pe.1) := by
  unfold fileEntry at h
  rcases pe with ⟨comps, e⟩
  cases e with
  | dir cs => simp at h
  | file r =>
    cases r with
    | error er => simp at h
    | ok text => simp at h; simp [← h]

theorem fileEntry_isFile {f : String} {pe : List String × Entry} {kv : String × String}
    (h : fileEntry f pe = some kv) : pe.2.isFile = true := by
  rw [(fileEntry_inv h).1]; rfl

/-! ## Permutation and prefix-order helpers -/

theorem charsLE_append : ∀ (pre a b : List Char),
    charsLE (pre ++ a) (pre ++ b) = charsLE a b := by
  intro pre
  induction pre with
  | nil => intro a b; rfl
  | cons c cp ih => intro a b; simp [charsLE, ih]

theorem strLE_append_left (p x y : String) : strLE (p ++ x) (p ++ y) = strLE x y := by
  unfold strLE
  rw [String.data_append, String.data_append]
  exact charsLE_append p.data x.data y.data

theorem eq_of_perm_of_map_eq {α β : Type} (g : α → β) :
    ∀ (l1 l2 : List α), List.Perm l1 l2 → l1.map g = l2.map g → (l1.map g).Nodup → l1 = l2 := by
  intro l1
  induction l1 with
  | nil => intro l2 hp _ _; exact (hp.symm.eq_nil).symm
  | cons a t1 ih =>
    intro l2 hp hm hnd
    cases l2 with
    | nil => exact absurd hp.eq_nil (by simp)
    | cons b t2 =>
      simp only [List.map_cons, List.cons.injEq] at hm
      have hab : a = b := by
        rcases List.mem_cons.mp (hp.subset (List.mem_cons_self a t1)) with h | h
        · exact h
        · exfalso
          have hga : g a ∈ t2.map g := List.mem_map_of_mem g h
          rw [← hm.2] at hga
          rw [List.map_cons] at hnd
          exact (List.nodup_cons.mp hnd).1 (hm.1 ▸ hga)
      subst hab
      have ht : List.Perm t1 t2 := hp.cons_inv
      have : t1 = t2 := ih t2 ht hm.2 ((List.nodup_cons.mp (by simpa using hnd)).2)
      rw [this]

/-! ## Claim theorems: the publisher and the chat helper -/

/-- C3: publish fails with MissingCredential when the access token is empty
and — the token being present — with MissingTarget when the repository
identifier is empty; in both cases the call trace is empty, i.e. the
failure precedes any remote interaction. -/
theorem C3_publish_validation (remote : Remote) (token repo : String)
    (bp : List (String × String)) (msg br : String) :
    (token = "" →
      deploy_to_github remote token repo bp msg br = ([], .error .missingCredential))
    ∧ (token ≠ "" → repo = "" →
      deploy_to_github remote token repo bp msg br = ([], .error .missingTarget)) := by
  constructor
  · intro h; simp [deploy_to_github, h]
  · intro h1 h2; simp [deploy_to_github, h1, h2]

/-- Witness for C3 at concrete inputs. -/
theorem C3_publish_validation_witness :
    deploy_to_github ⟨.ok (), .error "boom", .ok (), .ok ()⟩ "" "owner/repo" [] "m" "main"
      = ([], .error .missingCredential)
    ∧ deploy_to_github ⟨.ok (), .error "boom", .ok (), .ok ()⟩ "tok" "" [] "m" "main"
      = ([], .error .missingTarget) :=
  ⟨(C3_publish_validation ⟨.ok (), .error "boom", .ok (), .ok ()⟩ "" "owner/repo" [] "m" "main").1
      rfl,
   (C3_publish_validation ⟨.ok (), .error "boom", .ok (), .ok ()⟩ "tok" "" [] "m" "main").2
      (by decide) rfl⟩

/-- C9: `generate_response` with an empty API key raises MissingCredential
and performs no network call (empty call trace). -/
theorem C9_generate_response_empty_key (model_name : String)
    (messages : List (String × String)) (net : Except String (Option RespObj)) :
    generate_response "" model_name messages net = ([], .error .missingCredential) := by
  simp [generate_response]

/-- C2: when the fetch of the target file raises an error whose text
contains "404" or, case-insensitively, "not found", publish calls
create-file exactly once, with the serialized blueprint, and never calls
update-file; when the error text contains neither marker, the error is
re-raised unchanged and neither create nor update is called. -/
theorem C2_fetch_failure (remote : Remote) (token repo : String)
    (bp : List (String × String)) (msg br e : String)
    (htok : token ≠ "") (hrepo : repo ≠ "")
    (hgr : remote.get_repo = .ok ()) (hgc : remote.get_contents = .error e) :
    (notFoundMatch e = true →
      (deploy_to_github remote token repo bp msg br).1.filter GHCall.isCreate
          = [GHCall.create_file "admin_tools_blueprint.json" msg (dumps bp) br]
        ∧ (deploy_to_github remote token repo bp msg br).1.filter GHCall.isUpdate = [])
    ∧ (notFoundMatch e = false →
      deploy_to_github remote token repo bp msg br
        = ([GHCall.get_repo repo, GHCall.get_contents "admin_tools_blueprint.json" br],
            .error (.remote e))) := by
  constructor
  · intro hnf
    cases hcf : remote.create_file with
    | ok u =>
      cases u
      constructor <;>
        simp [deploy_to_github, htok, hrepo, hgr, hgc, deployHandler, hnf, hcf,
          GHCall.isCreate, GHCall.isUpdate]
    | error e2 =>
      constructor <;>
        simp [deploy_to_github, htok, hrepo, hgr, hgc, deployHandler, hnf, hcf,
          GHCall.isCreate, GHCall.isUpdate]
  · intro hnf
    simp [deploy_to_github, htok, hrepo, hgr, hgc, deployHandler, hnf]

/-- Witness for C2: a fetch failing with "404 Not Found" leads to one
create call carrying the serialized blueprint and no update call; a fetch
failing with "500 oops" is re-raised with no create and no update. -/
theorem C2_fetch_failure_witness :
    ((deploy_to_github ⟨.ok (), .error "404 Not Found", .ok (), .ok ()⟩
        "tok" "owner/repo" [("a", "b")] "m" "main").1.filter GHCall.isCreate
      = [GHCall.create_file "admin_tools_blueprint.json" "m" (dumps [("a", "b")]) "main"]
    ∧ (deploy_to_github ⟨.ok (), .error "404 Not Found", .ok (), .ok ()⟩
        "tok" "owner/repo" [("a", "b")] "m" "main").1.filter GHCall.isUpdate = [])
    ∧ deploy_to_github ⟨.ok (), .error "500 oops", .ok (), .ok ()⟩
        "tok" "owner/repo" [("a", "b")] "m" "main"
      = ([GHCall.get_repo "owner/repo",
          GHCall.get_contents "admin_tools_blueprint.json" "main"],
          .error (.remote "500 oops")) :=
  ⟨(C2_fetch_failure ⟨.ok (), .error "404 Not Found", .ok (), .ok ()⟩ "tok" "owner/repo"
      [("a", "b")] "m" "main" "404 Not Found" (by decide) (by decide) rfl rfl).1 (by decide),
   (C2_fetch_failure ⟨.ok (), .error "500 oops", .ok (), .ok ()⟩ "tok" "owner/repo"
      [("a", "b")] "m" "main" "500 oops" (by decide) (by decide) rfl rfl).2 (by decide)⟩

/-- C1 counterexample: the `try` block spans both the fetch and the update,
so when the fetch succeeds but the update then fails with an error whose
text contains "404", the failure is NOT surfaced: the handler converts it
into a create call and the run reports success — refuting the claim's
"zero create calls" and "any failure of the update call is surfaced". -/
theorem C1_counterexample :
    (deploy_to_github
        ⟨.ok (), .ok ⟨"admin_tools_blueprint.json", "sha1"⟩,
          .error "404 no such branch", .ok ()⟩
        "tok" "owner/repo" [] "msg" "main").1.filter GHCall.isCreate
      = [GHCall.create_file "admin_tools_blueprint.json" "msg" (dumps []) "main"]
    ∧ (deploy_to_github
        ⟨.ok (), .ok ⟨"admin_tools_blueprint.json", "sha1"⟩,
          .error "404 no such branch", .ok ()⟩
        "tok" "owner/repo" [] "msg" "main").2 = Except.ok () :=
  ⟨rfl, rfl⟩

/-- C1 amended: when the fetch succeeds, publish performs exactly one fetch
and exactly one update passing the fetched concurrency token, and performs
no create call and surfaces the update failure as a remote error — PROVIDED
the update failure's text contains neither "404" nor (case-insensitively)
"not found"; an update failure carrying such a marker is instead converted
into one create call, because the `except` handler also covers the update
statement. -/
theorem C1_update_with_fetched_token (remote : Remote) (token repo : String)
    (bp : List (String × String)) (msg br : String) (ex : ExistingFile)
    (htok : token ≠ "") (hrepo : repo ≠ "")
    (hgr : remote.get_repo = .ok ()) (hgc : remote.get_contents = .ok ex) :
    ((deploy_to_github remote token repo bp msg br).1.filter GHCall.isFetch
        = [GHCall.get_contents "admin_tools_blueprint.json" br])
    ∧ ((deploy_to_github remote token repo bp msg br).1.filter GHCall.isUpdate
        = [GHCall.update_file ex.path msg (dumps bp) ex.sha br])
    ∧ (remote.update_file = .ok () →
        deploy_to_github remote token repo bp msg br
          = ([GHCall.get_repo repo, GHCall.get_contents "admin_tools_blueprint.json" br,
              GHCall.update_file ex.path msg (dumps bp) ex.sha br], .ok ()))
    ∧ (∀ e, remote.update_file = .error e → notFoundMatch e = false →
        deploy_to_github remote token repo bp msg br
          = ([GHCall.get_repo repo, GHCall.get_contents "admin_tools_blueprint.json" br,
              GHCall.update_file ex.path msg (dumps bp) ex.sha br], .error (.remote e)))
    ∧ (∀ e, remote.update_file = .error e → notFoundMatch e = true →
        (deploy_to_github remote token repo bp msg br).1.filter GHCall.isCreate
          = [GHCall.create_file "admin_tools_blueprint.json" msg (dumps bp) br]) := by
  refine ⟨?_, ?_, ?_, ?_, ?_⟩
  · cases hup : remote.update_file with
    | ok u =>
      cases u
      simp [deploy_to_github, htok, hrepo, hgr, hgc, hup, GHCall.isFetch]
    | error e =>
      cases hnf : notFoundMatch e with
      | false =>
        simp [deploy_to_github, htok, hrepo, hgr, hgc, hup, deployHandler, hnf, GHCall.isFetch]
      | true =>
        cases hcf : remote.create_file <;>
          simp [deploy_to_github, htok, hrepo, hgr, hgc, hup, deployHandler, hnf, hcf,
            GHCall.isFetch]
  · cases hup : remote.update_file with
    | ok u =>
      cases u
      simp [deploy_to_github, htok, hrepo, hgr, hgc, hup, GHCall.isUpdate]
    | error e =>
      cases hnf : notFoundMatch e with
      | false =>
        simp [deploy_to_github, htok, hrepo, hgr, hgc, hup, deployHandler, hnf, GHCall.isUpdate]
      | true =>
        cases hcf : remote.create_file <;>
          simp [deploy_to_github, htok, hrepo, hgr, hgc, hup, deployHandler, hnf, hcf,
            GHCall.isUpdate]
  · intro hup
    simp [deploy_to_github, htok, hrepo, hgr, hgc, hup]
  · intro e hup hnf
    simp [deploy_to_github, htok, hrepo, hgr, hgc, hup, deployHandler, hnf]
  · intro e hup hnf
    cases hcf : remote.create_file <;>
      simp [deploy_to_github, htok, hrepo, hgr, hgc, hup, deployHandler, hnf, hcf,
        GHCall.isCreate]

/-- Witness for the amended C1: an existing file is updated with the
fetched token `"sha1"`, with one fetch, one update, no create. -/
theorem C1_update_with_fetched_token_witness :
    ((deploy_to_github ⟨.ok (), .ok ⟨"admin_tools_blueprint.json", "sha1"⟩, .ok (), .ok ()⟩
        "tok" "owner/repo" [("a", "b")] "m" "main").1.filter GHCall.isFetch
      = [GHCall.get_contents "admin_tools_blueprint.json" "main"])
    ∧ ((deploy_to_github ⟨.ok (), .ok ⟨"admin_tools_blueprint.json", "sha1"⟩, .ok (), .ok ()⟩
        "tok" "owner/repo" [("a", "b")] "m" "main").1.filter GHCall.isUpdate
      = [GHCall.update_file "admin_tools_blueprint.json" "m" (dumps [("a", "b")]) "sha1" "main"])
    ∧ deploy_to_github ⟨.ok (), .ok ⟨"admin_tools_blueprint.json", "sha1"⟩, .ok (), .ok ()⟩
        "tok" "owner/repo" [("a", "b")] "m" "main"
      = ([GHCall.get_repo "owner/repo", GHCall.get_contents "admin_tools_blueprint.json" "main",
          GHCall.update_file "admin_tools_blueprint.json" "m" (dumps [("a", "b")]) "sha1" "main"],
          .ok ()) := by
  have h := C1_update_with_fetched_token
    ⟨.ok (), .ok ⟨"admin_tools_blueprint.json", "sha1"⟩, .ok (), .ok ()⟩
    "tok" "owner/repo" [("a", "b")] "m" "main" ⟨"admin_tools_blueprint.json", "sha1"⟩
    (by decide) (by decide) rfl rfl
  exact ⟨h.1, h.2.1, h.2.2.1 rfl⟩

/-! ## Claim theorems: the blueprint builder -/

/-- C6: for a path that does not exist or is not a directory, build returns
the empty mapping (the model's total return type records that no error is
raised). -/
theorem C6_missing_or_nondir (f : String) (r : Except ReadError String) :
    build_blueprint_from_folder f none = []
    ∧ build_blueprint_from_folder f (some (.file r)) = [] :=
  ⟨rfl, rfl⟩

/-- C10: build skips a file on any read failure whatsoever: every entry of
the returned mapping comes from a file whose read succeeded (so an
unreadable file — permission, I/O, decode or other error — contributes no
entry and raises nothing, even when its content was valid UTF-8), and
concretely every one of the four failure kinds leaves only the readable
file in the result. -/
theorem C10_skip_on_any_read_failure :
    (∀ (f : String) (cs : List (String × Entry)) (k v : String),
      (k, v) ∈ build_blueprint_from_folder f (some (.dir cs)) →
      ∃ comps, (comps, Entry.file (.ok v)) ∈ walkList cs ∧ k = pathStr (f :: comps))
    ∧ (∀ err : ReadError,
      build_blueprint_from_folder "root" (some (.dir
        [("good.txt", .file (.ok "data")), ("locked.txt", .file (.error err))]))
        = [("root/good.txt", "data")]) := by
  constructor
  · intro f cs k v h
    have h2 := mem_foldl_buildStep f (((walkList cs).insertionSort pathLE)) [] (k, v) h
    rcases h2 with hin | ⟨pe, hpe, hfe⟩
    · simp at hin
    · have hperm := List.perm_insertionSort pathLE (walkList cs)
      rcases fileEntry_inv hfe with ⟨hfile, hkey⟩
      refine ⟨pe.1, ?_, hkey⟩
      have : pe ∈ walkList cs := hperm.subset hpe
      rw [← hfile]
      exact this
  · intro err
    cases err <;> decide

/-- C4: every key of the built mapping is the path of a file of the tree
expressed relative to the parent of the root directory — the root
directory's own name is the first segment — joined with forward slashes. -/
theorem C4_keys_relative_to_parent (f : String) (cs : List (String × Entry)) (k v : String)
    (h : (k, v) ∈ build_blueprint_from_folder f (some (.dir cs))) :
    ∃ comps, (∃ e, (comps, e) ∈ walkList cs ∧ e.isFile = true)
      ∧ k = pathStr (f :: comps) := by
  have h2 := mem_foldl_buildStep f (((walkList cs).insertionSort pathLE)) [] (k, v) h
  rcases h2 with hin | ⟨pe, hpe, hfe⟩
  · simp at hin
  · have hperm := List.perm_insertionSort pathLE (walkList cs)
    exact ⟨pe.1, ⟨pe.2, hperm.subset hpe, fileEntry_isFile hfe⟩, (fileEntry_inv hfe).2⟩

/-- Witness for C4 at a concrete two-level tree. -/
theorem C4_keys_relative_to_parent_witness :
    ∃ comps,
      (∃ e, (comps, e) ∈ walkList
          [("a.txt", Entry.file (.ok "hi")),
           ("sub", Entry.dir [("b.txt", Entry.file (.ok "yo"))])]
        ∧ e.isFile = true)
      ∧ "root/sub/b.txt" = pathStr ("root" :: comps) :=
  C4_keys_relative_to_parent "root"
    [("a.txt", Entry.file (.ok "hi")),
     ("sub", Entry.dir [("b.txt", Entry.file (.ok "yo"))])]
    "root/sub/b.txt" "yo" (by decide)

/-- C5: on a tree with distinct paths (as file-system paths are), the built
mapping is exactly one entry per file whose read succeeds as UTF-8 — in
sorted path order, directories excluded, failed reads skipped without
error — and on the spec's concrete tree
`root/(a.txt:"hi", sub/b.bin:<invalid utf-8>)` the result is exactly
`root/a.txt ↦ "hi"`. -/
theorem C5_one_entry_per_readable_file (f : String) (cs : List (String × Entry))
    (hnd : ((walkList cs).map (fun pe => pathStr pe.1)).Nodup) :
    build_blueprint_from_folder f (some (.dir cs))
      = ((walkList cs).insertionSort pathLE).filterMap (fileEntry f)
    ∧ build_blueprint_from_folder "root" (some (.dir
        [("a.txt", .file (.ok "hi")), ("sub", .dir [("b.bin", .file (.error .decodeError))])]))
      = [("root/a.txt", "hi")] :=
  ⟨build_eq_filterMap f cs hnd, by decide⟩

/-- Witness for C5 at the spec's concrete tree. -/
theorem C5_one_entry_per_readable_file_witness :
    build_blueprint_from_folder "root" (some (.dir
        [("a.txt", .file (.ok "hi")), ("sub", .dir [("b.bin", .file (.error .decodeError))])]))
      = ((walkList
          [("a.txt", .file (.ok "hi")), ("sub", .dir [("b.bin", .file (.error .decodeError))])]
          ).insertionSort pathLE).filterMap (fileEntry "root")
    ∧ build_blueprint_from_folder "root" (some (.dir
        [("a.txt", .file (.ok "hi")), ("sub", .dir [("b.bin", .file (.error .decodeError))])]))
      = [("root/a.txt", "hi")] :=
  C5_one_entry_per_readable_file "root"
    [("a.txt", .file (.ok "hi")), ("sub", .dir [("b.bin", .file (.error .decodeError))])]
    (by decide)

/-- C8: build is deterministic in the tree: whatever order the file system
enumerates the entries in (any permutation of the walk), the result is the
same mapping, because the traversal is sorted by path string; moreover the
keys of the result are in ascending lexicographic (code-point) order. -/
theorem C8_deterministic_and_sorted (f : String) (cs cs' : List (String × Entry))
    (hperm : List.Perm (walkList cs) (walkList cs'))
    (hnd : ((walkList cs).map (fun pe => pathStr pe.1)).Nodup) :
    build_blueprint_from_folder f (some (.dir cs))
      = build_blueprint_from_folder f (some (.dir cs'))
    ∧ List.Pairwise (fun a b => strLE a b = true)
        ((build_blueprint_from_folder f (some (.dir cs))).map Prod.fst) := by
  have hp1 : List.Perm ((walkList cs).insertionSort pathLE) (walkList cs) :=
    List.perm_insertionSort pathLE (walkList cs)
  have hp2 : List.Perm ((walkList cs').insertionSort pathLE) (walkList cs') :=
    List.perm_insertionSort pathLE (walkList cs')
  have hss : List.Perm ((walkList cs).insertionSort pathLE)
      ((walkList cs').insertionSort pathLE) :=
    hp1.trans (hperm.trans hp2.symm)
  have hsorted1 : ((walkList cs).insertionSort pathLE).Pairwise pathLE :=
    List.sorted_insertionSort pathLE (walkList cs)
  have hsorted2 : ((walkList cs').insertionSort pathLE).Pairwise pathLE :=
    List.sorted_insertionSort pathLE (walkList cs')
  have hk1 : (((walkList cs).insertionSort pathLE).map (fun pe => pathStr pe.1)).Pairwise
      (fun a b => strLE a b = true) :=
    (List.pairwise_map).mpr hsorted1
  have hk2 : (((walkList cs').insertionSort pathLE).map (fun pe => pathStr pe.1)).Pairwise
      (fun a b => strLE a b = true) :=
    (List.pairwise_map).mpr hsorted2
  haveI : IsAntisymm String (fun a b => strLE a b = true) :=
    ⟨fun _ _ hab hba => strLE_antisymm hab hba⟩
  have hmeq : ((walkList cs).insertionSort pathLE).map (fun pe => pathStr pe.1)
      = ((walkList cs').insertionSort pathLE).map (fun pe => pathStr pe.1) :=
    List.eq_of_perm_of_sorted (hss.map _) hk1 hk2
  have hnd1 : (((walkList cs).insertionSort pathLE).map (fun pe => pathStr pe.1)).Nodup :=
    ((hp1.map _).nodup_iff).mpr hnd
  have hseq : (walkList cs).insertionSort pathLE = (walkList cs').insertionSort pathLE :=
    eq_of_perm_of_map_eq _ _ _ hss hmeq hnd1
  constructor
  · simp only [build_blueprint_from_folder]
    rw [hseq]
  · rw [build_eq_filterMap f cs hnd]
    have hfull : (((walkList cs).insertionSort pathLE).map
        (fun pe => pathStr (f :: pe.1))).Pairwise (fun a b => strLE a b = true) := by
      apply (List.pairwise_map).mpr
      apply hsorted1.imp_of_mem
      intro a b ha hb hab
      have hane : a.1 ≠ [] := walkList_path_ne_nil (hp1.subset ha)
      have hbne : b.1 ≠ [] := walkList_path_ne_nil (hp1.subset hb)
      rw [pathStr_cons_of_ne_nil hane, pathStr_cons_of_ne_nil hbne]
      rw [String.append_assoc f "/" (pathStr a.1), String.append_assoc f "/" (pathStr b.1)]
      rw [strLE_append_left]
      exact hab
    exact List.Pairwise.sublist (filterMap_keys_sublist f _) hfull

/-- Witness for C8: two sibling orders of the same two-file directory give
the same mapping, with sorted keys. -/
theorem C8_deterministic_and_sorted_witness :
    build_blueprint_from_folder "root" (some (.dir
        [("a.txt", Entry.file (.ok "1")), ("b.txt", Entry.file (.ok "2"))]))
      = build_blueprint_from_folder "root" (some (.dir
        [("b.txt", Entry.file (.ok "2")), ("a.txt", Entry.file (.ok "1"))]))
    ∧ List.Pairwise (fun a b => strLE a b = true)
        ((build_blueprint_from_folder "root" (some (.dir
          [("a.txt", Entry.file (.ok "1")), ("b.txt", Entry.file (.ok "2"))]))).map Prod.fst) :=
  C8_deterministic_and_sorted "root"
    [("a.txt", Entry.file (.ok "1")), ("b.txt", Entry.file (.ok "2"))]
    [("b.txt", Entry.file (.ok "2")), ("a.txt", Entry.file (.ok "1"))]
    (List.Perm.swap (["b.txt"], Entry.file (Except.ok "2"))
      (["a.txt"], Entry.file (Except.ok "1")) [])
    (by decide)

/-! ## JSON round-trip lemmas -/

theorem fromHex_hexDigit : ∀ n < 16, fromHex (hexDigit n) = some n := by decide


theorem fromHex_zero : fromHex '0' = some 0 := by decide

theorem parseStringBody_esc (cs : List Char) :
    ∀ rest : List Char,
    parseStringBody (cs.flatMap escChar ++ '"' :: rest) = some (cs, rest) := by
  induction cs with
  | nil =>
    intro rest
    rw [List.flatMap_nil, List.nil_append, parseStringBody.eq_def]
    simp
  | cons c cs ih =>
    intro rest
    rw [List.flatMap_cons, List.append_assoc]
    by_cases h1 : c = '"'
    · subst h1
      simp only [escChar, if_pos rfl, List.cons_append, List.nil_append]
      rw [parseStringBody.eq_def]
      simp [simpleUnescape, ih]
    · by_cases h2 : c = '\\'
      · subst h2
        simp only [escChar, reduceIte, List.cons_append, List.nil_append]
        rw [parseStringBody.eq_def]
        simp [simpleUnescape, ih]
      · by_cases h3 : c = '\x08'
        · subst h3
          simp only [escChar, reduceIte, List.cons_append, List.nil_append]
          rw [parseStringBody.eq_def]
          simp [simpleUnescape, ih]
        · by_cases h4 : c = '\t'
          · subst h4
            simp only [escChar, reduceIte, List.cons_append, List.nil_append]
            rw [parseStringBody.eq_def]
            simp [simpleUnescape, ih]
          · by_cases h5 : c = '\n'
            · subst h5
              simp only [escChar, reduceIte, List.cons_append, List.nil_append]
              rw [parseStringBody.eq_def]
              simp [simpleUnescape, ih]
            · by_cases h6 : c = '\x0c'
              · subst h6
                simp only [escChar, reduceIte, List.cons_append, List.nil_append]
                rw [parseStringBody.eq_def]
                simp [simpleUnescape, ih]
              · by_cases h7 : c = '\r'
                · subst h7
                  simp only [escChar, reduceIte, List.cons_append, List.nil_append]
                  rw [parseStringBody.eq_def]
                  simp [simpleUnescape, ih]
                · by_cases h8 : c.toNat < 0x20
                  · have hd : c.toNat / 16 < 16 := by omega
                    have hm : c.toNat % 16 < 16 := Nat.mod_lt _ (by omega)
                    simp only [escChar, if_neg h1, if_neg h2, if_neg h3, if_neg h4, if_neg h5,
                      if_neg h6, if_neg h7, if_pos h8, List.cons_append, List.nil_append]
                    rw [parseStringBody.eq_def]
                    simp [hex4, fromHex_zero, fromHex_hexDigit _ hd, fromHex_hexDigit _ hm,
                      Nat.div_add_mod, ih]
                  · simp only [escChar, if_neg h1, if_neg h2, if_neg h3, if_neg h4, if_neg h5,
                      if_neg h6, if_neg h7, if_neg h8, List.cons_append, List.nil_append]
                    rw [parseStringBody.eq_def]
                    simp [h1, h2, h8, ih]

theorem asString_data (s : String) : s.data.asString = s := by
  cases s; rfl

theorem data_asString (l : List Char) : l.asString.data = l := rfl

theorem jsonEntry_data (k v : String) :
    (jsonEntry (k, v)).data
      = ' ' :: ' ' :: '"' :: (k.data.flatMap escChar ++ '"' :: ':' :: ' ' :: '"' ::
          (v.data.flatMap escChar ++ ['"'])) := by
  simp [jsonEntry, jsonQuote, String.data_append, data_asString]

theorem parseMember_entry (k v : String) (rest : List Char) :
    parseMember ((jsonEntry (k, v)).data ++ rest) = some ((k, v), rest) := by
  rw [jsonEntry_data]
  simp only [List.cons_append, List.append_assoc]
  unfold parseMember
  simp [skipWs, parseStringBody_esc, asString_data]

theorem parseMember_cons_nl (l : List Char) : parseMember ('\n' :: l) = parseMember l := by
  unfold parseMember
  rw [show skipWs ('\n' :: l) = skipWs l from by simp [skipWs]]

theorem parseMembers_entriesData :
    ∀ (B : List (String × String)) (rest : List Char) (fuel : Nat),
    B ≠ [] → B.length ≤ fuel →
    parseMembers fuel ('\n' :: (entriesData B ++ rest)) = some (B, rest) := by
  intro B
  induction B with
  | nil => intro rest fuel h _; exact absurd rfl h
  | cons kv tl ih =>
    intro rest fuel _ hf
    cases fuel with
    | zero => simp at hf
    | succ f =>
      cases tl with
      | nil =>
        rcases kv with ⟨k, v⟩
        show parseMembers (f + 1)
          ('\n' :: (((jsonEntry (k, v)).data ++ ['\n', '\x7d']) ++ rest)) = _
        unfold parseMembers
        rw [parseMember_cons_nl]
        simp only [List.append_assoc, List.cons_append, List.nil_append]
        rw [parseMember_entry]
        simp [skipWs]
      | cons kv2 ts =>
        rcases kv with ⟨k, v⟩
        have hlen : (kv2 :: ts).length ≤ f := by
          simp only [List.length_cons] at hf ⊢
          omega
        show parseMembers (f + 1)
          ('\n' :: (((jsonEntry (k, v)).data ++ ',' :: '\n' :: entriesData (kv2 :: ts)) ++ rest))
            = _
        unfold parseMembers
        rw [parseMember_cons_nl]
        simp only [List.append_assoc, List.cons_append]
        rw [parseMember_entry]
        simp [skipWs, ih rest f (by simp) hlen]

theorem entriesData_eq_dumpsEntries :
    ∀ B : List (String × String), B ≠ [] →
    entriesData B = (dumpsEntries B).data ++ ['\n', '\x7d'] := by
  intro B
  induction B with
  | nil => intro h; exact absurd rfl h
  | cons kv tl ih =>
    intro _
    cases tl with
    | nil => rfl
    | cons kv2 ts =>
      show entriesData (kv :: kv2 :: ts) = _
      rw [show entriesData (kv :: kv2 :: ts)
          = (jsonEntry kv).data ++ ',' :: '\n' :: entriesData (kv2 :: ts) from rfl]
      rw [ih (by simp)]
      show _ = (jsonEntry kv ++ ",\n" ++ dumpsEntries (kv2 :: ts)).data ++ _
      simp [String.data_append]

theorem dumps_data (B : List (String × String)) (h : B ≠ []) :
    (dumps B).data = '\x7b' :: '\n' :: entriesData B := by
  cases B with
  | nil => exact absurd rfl h
  | cons kv tl =>
    rw [entriesData_eq_dumpsEntries _ (by simp)]
    show ("\x7b\n" ++ dumpsEntries (kv :: tl) ++ "\n\x7d").data = _
    simp [String.data_append]

theorem entriesData_length :
    ∀ B : List (String × String), B.length ≤ (entriesData B).length := by
  intro B
  induction B with
  | nil => simp [entriesData]
  | cons kv tl ih =>
    cases tl with
    | nil => simp [entriesData]
    | cons kv2 ts =>
      rw [show entriesData (kv :: kv2 :: ts)
          = (jsonEntry kv).data ++ ',' :: '\n' :: entriesData (kv2 :: ts) from rfl]
      simp only [List.length_cons, List.length_append] at ih ⊢
      omega

theorem foldl_dictInsert_eq :
    ∀ (B acc : List (String × String)),
    (acc.map Prod.fst ++ B.map Prod.fst).Nodup →
    B.foldl (fun d kv => dictInsert d kv.1 kv.2) acc = acc ++ B := by
  intro B
  induction B with
  | nil => intro acc _; simp
  | cons kv tl ih =>
    intro acc hnd
    rw [List.foldl_cons]
    have hknotacc : ∀ p ∈ acc, p.1 ≠ kv.1 := by
      intro p hp he
      rcases List.nodup_append.mp hnd with ⟨_, _, hdisj⟩
      have hmem : p.1 ∈ (kv :: tl).map Prod.fst := by
        rw [List.map_cons, he]; exact List.mem_cons_self _ _
      exact hdisj (List.mem_map_of_mem Prod.fst hp) hmem
    rw [dictInsert_of_not_mem hknotacc]
    have hnd' : ((acc ++ [kv]).map Prod.fst ++ tl.map Prod.fst).Nodup := by
      have heq : (acc ++ [kv]).map Prod.fst ++ tl.map Prod.fst
          = acc.map Prod.fst ++ (kv.1 :: tl.map Prod.fst) := by simp
      rw [heq]
      simpa using hnd
    rw [ih (acc ++ [kv]) hnd']
    simp

theorem skipWs_entry_head (k v : String) (Z : List Char) :
    skipWs ('\n' :: ((jsonEntry (k, v)).data ++ Z))
      = '"' :: ((k.data.flatMap escChar ++ '"' :: ':' :: ' ' :: '"' ::
          (v.data.flatMap escChar ++ ['"'])) ++ Z) := by
  rw [jsonEntry_data]
  simp [skipWs, List.append_assoc]

theorem skipWs_nl_entriesData (kv : String × String) (tl : List (String × String)) :
    ∃ X, skipWs ('\n' :: entriesData (kv :: tl)) = '"' :: X := by
  rcases kv with ⟨k, v⟩
  cases tl with
  | nil =>
    exact ⟨_, by
      rw [show entriesData [(k, v)] = (jsonEntry (k, v)).data ++ ['\n', '\x7d'] from rfl,
        skipWs_entry_head]⟩
  | cons kv2 ts =>
    exact ⟨_, by
      rw [show entriesData ((k, v) :: kv2 :: ts)
          = (jsonEntry (k, v)).data ++ ',' :: '\n' :: entriesData (kv2 :: ts) from rfl,
        skipWs_entry_head]⟩

theorem loads_dumps (B : List (String × String)) (hnd : (B.map Prod.fst).Nodup) :
    loads (dumps B) = some B := by
  cases B with
  | nil => decide
  | cons kv tl =>
    unfold loads
    rw [dumps_data _ (by simp)]
    rw [show skipWs ('\x7b' :: '\n' :: entriesData (kv :: tl))
        = '\x7b' :: '\n' :: entriesData (kv :: tl) from by simp [skipWs]]
    simp only [reduceIte]
    rcases skipWs_nl_entriesData kv tl with ⟨X, hX⟩
    rw [hX]
    have hfuel : (kv :: tl).length ≤ ('\n' :: entriesData (kv :: tl)).length + 1 := by
      have := entriesData_length (kv :: tl)
      simp only [List.length_cons] at this ⊢
      omega
    have hpm : parseMembers (('\n' :: entriesData (kv :: tl)).length + 1)
        ('\n' :: entriesData (kv :: tl)) = some (kv :: tl, []) := by
      have h2 := parseMembers_entriesData (kv :: tl) []
        (('\n' :: entriesData (kv :: tl)).length + 1) (by simp) hfuel
      simpa using h2
    simp only [reduceIte, hpm]
    rw [foldl_dictInsert_eq (kv :: tl) [] (by simpa using hnd)]
    simp [skipWs]

/-- C7: parsing the serialized blueprint returns the same mapping, keys in
the same order (the association lists are equal); non-ASCII characters are
emitted literally by the escape function; every serialized member line is
indented by exactly two spaces and the object opens with a brace and a
newline.  The hypothesis — distinct keys — holds of every mapping a Python
dict can be. -/
theorem C7_serialize_parse_round_trip (B : List (String × String))
    (hnd : (B.map Prod.fst).Nodup) :
    loads (dumps B) = some B
    ∧ (∀ c : Char, 0x7f < c.toNat → escChar c = [c])
    ∧ (∀ kv : String × String, (jsonEntry kv).data.take 2 = [' ', ' '])
    ∧ (B ≠ [] → (dumps B).data.take 2 = ['\x7b', '\n']) := by
  refine ⟨loads_dumps B hnd, ?_, ?_, ?_⟩
  · intro c hc
    have h1 : c ≠ '"' := fun e => absurd hc (by subst e; decide)
    have h2 : c ≠ '\\' := fun e => absurd hc (by subst e; decide)
    have h3 : c ≠ '\x08' := fun e => absurd hc (by subst e; decide)
    have h4 : c ≠ '\t' := fun e => absurd hc (by subst e; decide)
    have h5 : c ≠ '\n' := fun e => absurd hc (by subst e; decide)
    have h6 : c ≠ '\x0c' := fun e => absurd hc (by subst e; decide)
    have h7 : c ≠ '\r' := fun e => absurd hc (by subst e; decide)
    have h8 : ¬ c.toNat < 0x20 := by omega
    simp [escChar, h1, h2, h3, h4, h5, h6, h7, h8]
  · intro kv
    rcases kv with ⟨k, v⟩
    rw [jsonEntry_data]
    rfl
  · intro hB
    rw [dumps_data B hB]
    rfl

/-- Witness for C7 at a concrete mapping with a non-ASCII, newline-carrying
value. -/
theorem C7_serialize_parse_round_trip_witness :
    loads (dumps [("a", "héllo\nworld"), ("b", "x")])
      = some [("a", "héllo\nworld"), ("b", "x")]
    ∧ (∀ c : Char, 0x7f < c.toNat → escChar c = [c])
    ∧ (∀ kv : String × String, (jsonEntry kv).data.take 2 = [' ', ' '])
    ∧ ([("a", "héllo\nworld"), ("b", "x")] ≠ ([] : List (String × String)) →
        (dumps [("a", "héllo\nworld"), ("b", "x")]).data.take 2 = ['\x7b', '\n']) :=
  C7_serialize_parse_round_trip [("a", "héllo\nworld"), ("b", "x")] (by decide)

/-- Witness for the general part of C10. -/
theorem C10_skip_on_any_read_failure_witness :
    ∃ comps, (comps, Entry.file (.ok "hi")) ∈ walkList [("a.txt", Entry.file (.ok "hi"))]
      ∧ "root/a.txt" = pathStr ("root" :: comps) :=
  C10_skip_on_any_read_failure.1 "root" [("a.txt", Entry.file (.ok "hi"))] "root/a.txt" "hi"
    (by decide)
